import Mathlib

/-!
Verification of `clifford_circuit.py` (repository `alewis/QuantumStuff`).

The program builds a random single-timestep circuit over a linear chain of
qubits.  We shallowly embed the three functions of the source file:

* `random_params` (lines 28-42): the Sampler.  The Python code consumes the
  process-wide random source via `random.random()`, one draw per
  (phase, qubit) slot, in the order Reset, CNOT, H, S, T, Measure and within
  each phase in ascending qubit index.  We pass the random source explicitly
  as a stream `rand : Nat -> Rat` consumed at successive positions.
* `build_circuit` (lines 45-78): the Builder.  Qubits are `cirq.LineQubit`
  values, identified here by their integer chain index.  Python floats only
  ever meet the comparison `p >= 0.5` in this program, so parameters are
  embedded as rationals.  Python `zip` truncates to the shorter list, and an
  out-of-range list subscript raises `IndexError`; the embedding returns
  `Except String _` and keeps both behaviours.  The source reads `params[1]`
  afresh inside the CNOT loop; the embedding reads it once before the loop,
  which is observationally equal because every read of a missing index
  produces the same `IndexError` outcome.
* `main` (lines 81-95): the Driver.  The external simulator (`cirq.Simulator`)
  is a black box; we record the list of circuits handed to it.  Note that the
  source's loop header (line 86) is `for timestep in range(NSTEPS)`, reading
  the module-level constant `NSTEPS`, not the `nsteps` parameter of `main`.

`cirq.Circuit` is code external to this repository.  Modelled from the spec:
the spec's data model defines a Circuit as "an ordered sequence of
Operations", so `Circuit` is a list and `circuit.append(ops)` appends the
emitted operations at the end, in emission order.
-/

deriving instance DecidableEq for Except

namespace QuantumStuff

/-- The Python literal `0.5`: the rational one half (written with `mkRat` so
that comparisons against it evaluate by kernel reduction). -/
def half : ℚ := mkRat 1 2

/-- An operation of the circuit, as in the spec's data model: a tagged variant
over Reset, CNOT, H, S, T, Measure, holding the chain indices of the qubits it
acts on. -/
inductive Operation where
  | Reset (q : ℕ)
  | CNOT (control target : ℕ)
  | H (q : ℕ)
  | S (q : ℕ)
  | T (q : ℕ)
  | Measure (q : ℕ)
deriving DecidableEq, Repr

/-- Modelled from the spec: a Circuit is an ordered sequence of Operations
(the container `cirq.Circuit` is external to the repository; `append` is list
append, keeping emission order). -/
abbrev Circuit := List Operation

/-- Python list subscript `l[i]`: the element, or an `IndexError`. -/
def getIdx {α : Type} (l : List α) (i : ℕ) : Except String α :=
  match l[i]? with
  | some x => Except.ok x
  | none => Except.error "IndexError"

/-- One `zip`-style phase of `build_circuit`:
`[f q for (q, p) in zip(qubits, ps) if p >= 0.5]`. -/
def phaseOps (f : ℕ → Operation) (qubits : List ℕ) (ps : List ℚ) :
    List Operation :=
  ((qubits.zip ps).filter (fun qp => qp.2 ≥ half)).map (fun qp => f qp.1)

/-- The CNOT loop of `build_circuit` (lines 65-67).  The loop
`for qi, q in enumerate(qubits[:-1])` with body using `qubits[qi+1]` iterates
exactly over the enumerated adjacent pairs `(qi, (q, q'))` of the qubit list;
each iteration subscripts `ps = params[1]` at `qi` (an `IndexError` when out of
range) and emits `CNOT(q, q')` when the parameter is at least one half. -/
def cnotLoop (ps : List ℚ) : List (ℕ × ℕ × ℕ) → Except String (List Operation)
  | [] => Except.ok []
  | (qi, q, q2) :: rest =>
    match ps[qi]? with
    | none => Except.error "IndexError"
    | some p =>
      (cnotLoop ps rest).map fun tail =>
        if p ≥ half then Operation.CNOT q q2 :: tail else tail

/-- `build_circuit(qubits, params)` (lines 45-78): six phases in the fixed
order Reset, CNOT, H, S, T, Measure; each phase includes qubit `i`'s operation
iff its parameter is `>= 0.5`.  `zip` truncates to the shorter list; the
subscripts `params[k]` and `params[1][qi]` can raise `IndexError`. -/
def build_circuit (qubits : List ℕ) (params : List (List ℚ)) :
    Except String Circuit := do
  let ps0 ← getIdx params 0
  let ps1 ← getIdx params 1
  let cnots ← cnotLoop ps1 ((qubits.zip qubits.tail).enum)
  let ps2 ← getIdx params 2
  let ps3 ← getIdx params 3
  let ps4 ← getIdx params 4
  let ps5 ← getIdx params 5
  pure (phaseOps Operation.Reset qubits ps0 ++ cnots ++
        phaseOps Operation.H qubits ps2 ++ phaseOps Operation.S qubits ps3 ++
        phaseOps Operation.T qubits ps4 ++
        phaseOps Operation.Measure qubits ps5)

/-- `random_params(nqubits)` (lines 28-42).  The Python code draws
`random.random()` once per slot, populating the six lists in program order:
`reset_state` consumes draws `0..n-1`, `apply_CNOT` draws `n..2n-1`, and so on
through `do_measurement`.  The random source is the explicit stream `rand`. -/
def random_params (nqubits : ℕ) (rand : ℕ → ℚ) : List (List ℚ) :=
  let reset_state := (List.range nqubits).map fun x => rand x
  let apply_CNOT := (List.range nqubits).map fun x => rand (nqubits + x)
  let apply_H := (List.range nqubits).map fun x => rand (2 * nqubits + x)
  let apply_S := (List.range nqubits).map fun x => rand (3 * nqubits + x)
  let apply_T := (List.range nqubits).map fun x => rand (4 * nqubits + x)
  let do_measurement := (List.range nqubits).map fun x => rand (5 * nqubits + x)
  [reset_state, apply_CNOT, apply_H, apply_S, apply_T, do_measurement]

/-- Module constant `NQUBITS` (line 21). -/
def NQUBITS : ℕ := 4

/-- Module constant `NSTEPS` (line 22). -/
def NSTEPS : ℕ := 1

/-- `main(nsteps, nqubits)` (lines 81-95), observed through the sequence of
circuits handed to the external simulator, one `simulator.simulate` call per
loop iteration.  The qubit list is `[cirq.LineQubit(x) for x in range(nqubits)]`
and each iteration draws a fresh parameter matrix, consuming `6 * nqubits`
positions of the random stream.  The loop header at line 86 is
`for timestep in range(NSTEPS)`: it reads the module constant `NSTEPS`, so the
`nsteps` argument is never consulted by the loop. -/
def main_sim_calls (nsteps nqubits : ℕ) (rand : ℕ → ℚ) :
    List (Except String Circuit) :=
  let _ := nsteps
  let qubits := List.range nqubits
  (List.range NSTEPS).map fun timestep =>
    build_circuit qubits
      (random_params nqubits fun k => rand (6 * nqubits * timestep + k))

/-- The Python-level state visible to `build_circuit`: its two argument
objects and the `cirq.Circuit` object it is constructing. -/
structure BuildState where
  qubits : List ℕ
  params : List (List ℚ)
  circuit : Circuit
deriving DecidableEq, Repr

/-- `circuit.append(ops)`: mutates only the `circuit` field of the state. -/
def appendOps (ops : List Operation) (s : BuildState) : BuildState :=
  { s with circuit := s.circuit ++ ops }

/-- Statement-by-statement state-passing translation of the body of
`build_circuit` (lines 60-78): each `circuit.append(...)` updates the circuit
object; no statement of the body assigns into `qubits` or `params`. -/
def build_circuit_state (s : BuildState) : Except String BuildState := do
  let ps0 ← getIdx s.params 0
  let s1 := appendOps (phaseOps Operation.Reset s.qubits ps0) s
  let ps1 ← getIdx s1.params 1
  let cnots ← cnotLoop ps1 ((s1.qubits.zip s1.qubits.tail).enum)
  let s2 := appendOps cnots s1
  let ps2 ← getIdx s2.params 2
  let s3 := appendOps (phaseOps Operation.H s2.qubits ps2) s2
  let ps3 ← getIdx s3.params 3
  let s4 := appendOps (phaseOps Operation.S s3.qubits ps3) s3
  let ps4 ← getIdx s4.params 4
  let s5 := appendOps (phaseOps Operation.T s4.qubits ps4) s4
  let ps5 ← getIdx s5.params 5
  pure (appendOps (phaseOps Operation.Measure s5.qubits ps5) s5)

/-- Phase number of an operation: the block of `build_circuit` that can emit
it (0 = Reset, 1 = CNOT, 2 = H, 3 = S, 4 = T, 5 = Measure). -/
def opPhase : Operation → ℕ
  | Operation.Reset _ => 0
  | Operation.CNOT _ _ => 1
  | Operation.H _ => 2
  | Operation.S _ => 3
  | Operation.T _ => 4
  | Operation.Measure _ => 5

/-- The qubit index an operation is keyed on within its phase (the control
for a CNOT). -/
def opKey : Operation → ℕ
  | Operation.Reset q => q
  | Operation.CNOT c _ => c
  | Operation.H q => q
  | Operation.S q => q
  | Operation.T q => q
  | Operation.Measure q => q

/-! ### Helper lemmas about the embedding -/

lemma zip_range_eq (N : ℕ) (ps : List ℚ) :
    (List.range N).zip ps =
      (List.range (min N ps.length)).map fun i => (i, ps.getD i 0) := by
  apply List.ext_getElem
  · simp
  · intro i h1 h2
    simp only [List.getElem_zip, List.getElem_map, List.getElem_range]
    simp only [List.length_zip, List.length_range, lt_min_iff] at h1
    rw [List.getD_eq_getElem ps 0 h1.2]

lemma zip_tail_range (N : ℕ) :
    (List.range N).zip (List.range N).tail =
      (List.range (N - 1)).map fun i => (i, i + 1) := by
  apply List.ext_getElem
  · simp
  · intro i h1 h2
    simp only [List.getElem_zip, List.getElem_map, List.getElem_range,
      List.getElem_tail]

lemma enum_map_range {α : Type} (g : ℕ → α) (m : ℕ) :
    ((List.range m).map g).enum = (List.range m).map fun i => (i, g i) := by
  apply List.ext_getElem
  · simp
  · intro i h1 h2
    simp [List.getElem_enum]

/-- The enumerated adjacent-pair list the CNOT loop walks over, for the chain
`0, 1, ..., N-1`. -/
lemma cnot_pairs_range (N : ℕ) :
    ((List.range N).zip (List.range N).tail).enum =
      (List.range (N - 1)).map fun i => (i, i, i + 1) := by
  rw [zip_tail_range, enum_map_range]

lemma phaseOps_range (f : ℕ → Operation) (N : ℕ) (ps : List ℚ) :
    phaseOps f (List.range N) ps =
      (((List.range (min N ps.length)).filter
        fun i => decide (ps.getD i 0 ≥ half)).map f) := by
  unfold phaseOps
  rw [zip_range_eq, List.filter_map, List.map_map]
  rfl

lemma cnotLoop_eq_ok (ps : List ℚ) (l : List (ℕ × ℕ × ℕ))
    (h : ∀ t ∈ l, t.1 < ps.length) :
    cnotLoop ps l = Except.ok
      ((l.filter fun t => decide (ps.getD t.1 0 ≥ half)).map
        fun t => Operation.CNOT t.2.1 t.2.2) := by
  induction l with
  | nil => rfl
  | cons t rest ih =>
    obtain ⟨qi, q, q2⟩ := t
    have hqi : qi < ps.length := h _ (List.mem_cons_self _ _)
    have hrest : ∀ u ∈ rest, u.1 < ps.length :=
      fun u hu => h u (List.mem_cons_of_mem _ hu)
    simp only [cnotLoop, List.getElem?_eq_getElem hqi, ih hrest,
      Except.map, List.filter_cons]
    rw [List.getD_eq_getElem ps 0 hqi]
    by_cases hp : half ≤ ps[qi] <;> simp [hp]

lemma cnotLoop_err (ps : List ℚ) (l : List (ℕ × ℕ × ℕ)) (t0 : ℕ × ℕ × ℕ)
    (ht : t0 ∈ l) (h : ps.length ≤ t0.1) :
    cnotLoop ps l = Except.error "IndexError" := by
  induction l with
  | nil => cases ht
  | cons t rest ih =>
    obtain ⟨qi, q, q2⟩ := t
    rcases List.mem_cons.mp ht with h0 | h0
    · have hnone : ps[qi]? = none := by
        apply List.getElem?_eq_none
        rw [h0] at h
        exact h
      simp only [cnotLoop]
      rw [hnone]
    · simp only [cnotLoop]
      cases hq : ps[qi]? with
      | none => rfl
      | some p => rw [ih h0]; rfl

/-- Normal form of the Builder on the chain `0..N-1` with an explicit list of
six parameter lists.  The CNOT list must cover indices `0..N-2` for the loop
to finish; `zip` truncation shows up as the `min` bounds of the other five
phases. -/
lemma build_circuit_range_eq (N : ℕ) (p0 p1 p2 p3 p4 p5 : List ℚ)
    (hc : N - 1 ≤ p1.length) :
    build_circuit (List.range N) [p0, p1, p2, p3, p4, p5] = Except.ok (
      (((List.range (min N p0.length)).filter
          fun i => decide (p0.getD i 0 ≥ half)).map Operation.Reset) ++
      (((List.range (N - 1)).filter
          fun i => decide (p1.getD i 0 ≥ half)).map
            fun i => Operation.CNOT i (i + 1)) ++
      (((List.range (min N p2.length)).filter
          fun i => decide (p2.getD i 0 ≥ half)).map Operation.H) ++
      (((List.range (min N p3.length)).filter
          fun i => decide (p3.getD i 0 ≥ half)).map Operation.S) ++
      (((List.range (min N p4.length)).filter
          fun i => decide (p4.getD i 0 ≥ half)).map Operation.T) ++
      (((List.range (min N p5.length)).filter
          fun i => decide (p5.getD i 0 ≥ half)).map Operation.Measure)) := by
  have hcnot : cnotLoop p1 (((List.range N).zip (List.range N).tail).enum) =
      Except.ok (((List.range (N - 1)).filter
        fun i => decide (p1.getD i 0 ≥ half)).map
          fun i => Operation.CNOT i (i + 1)) := by
    rw [cnot_pairs_range, cnotLoop_eq_ok]
    · rw [List.filter_map, List.map_map]
      rfl
    · intro t ht
      simp only [List.mem_map, List.mem_range] at ht
      obtain ⟨i, hi, rfl⟩ := ht
      simpa using lt_of_lt_of_le hi hc
  have step : build_circuit (List.range N) [p0, p1, p2, p3, p4, p5] =
      Except.bind (cnotLoop p1 (((List.range N).zip (List.range N).tail).enum))
        (fun cnots => Except.ok
          (phaseOps Operation.Reset (List.range N) p0 ++ cnots ++
           phaseOps Operation.H (List.range N) p2 ++
           phaseOps Operation.S (List.range N) p3 ++
           phaseOps Operation.T (List.range N) p4 ++
           phaseOps Operation.Measure (List.range N) p5)) := rfl
  rw [step, hcnot]
  simp only [Except.bind, phaseOps_range]

lemma except_bind_ok {ε α β : Type} (a : α) (f : α → Except ε β) :
    ((Except.ok a : Except ε α) >>= f) = f a := rfl

lemma except_bind_error {ε α β : Type} (e : ε) (f : α → Except ε β) :
    ((Except.error e : Except ε α) >>= f) = Except.error e := rfl

lemma getIdx_ok_iff {α : Type} (l : List α) (i : ℕ) (x : α) :
    getIdx l i = Except.ok x ↔ l[i]? = some x := by
  unfold getIdx
  cases l[i]? <;> simp

lemma cnotLoop_ok_bound (ps : List ℚ) (l : List (ℕ × ℕ × ℕ))
    (ops : List Operation) (h : cnotLoop ps l = Except.ok ops) :
    ∀ t ∈ l, t.1 < ps.length := by
  intro t ht
  by_contra hc
  rw [cnotLoop_err ps l t ht (le_of_not_lt hc)] at h
  cases h

lemma cnotLoop_ok_mem (ps : List ℚ) (l : List (ℕ × ℕ × ℕ))
    (ops : List Operation) (h : cnotLoop ps l = Except.ok ops) :
    ∀ x ∈ ops, ∃ t ∈ l, x = Operation.CNOT t.2.1 t.2.2 := by
  have hb := cnotLoop_ok_bound ps l ops h
  rw [cnotLoop_eq_ok ps l hb] at h
  injection h with h
  subst h
  intro x hx
  simp only [List.mem_map, List.mem_filter] at hx
  obtain ⟨t, ⟨ht, _⟩, rfl⟩ := hx
  exact ⟨t, ht, rfl⟩

/-- Successful runs of the Builder decompose into the six phase blocks, in
the emission order of the source. -/
lemma build_circuit_ok_decomp (qubits : List ℕ) (params : List (List ℚ))
    (c : Circuit) (h : build_circuit qubits params = Except.ok c) :
    ∃ p0 p1 p2 p3 p4 p5 cnots,
      params[0]? = some p0 ∧ params[1]? = some p1 ∧ params[2]? = some p2 ∧
      params[3]? = some p3 ∧ params[4]? = some p4 ∧ params[5]? = some p5 ∧
      cnotLoop p1 ((qubits.zip qubits.tail).enum) = Except.ok cnots ∧
      c = phaseOps Operation.Reset qubits p0 ++ cnots ++
          phaseOps Operation.H qubits p2 ++ phaseOps Operation.S qubits p3 ++
          phaseOps Operation.T qubits p4 ++
          phaseOps Operation.Measure qubits p5 := by
  unfold build_circuit at h
  cases h0 : getIdx params 0 with
  | error e => rw [h0, except_bind_error] at h; cases h
  | ok p0 =>
  rw [h0, except_bind_ok] at h
  cases h1 : getIdx params 1 with
  | error e => rw [h1, except_bind_error] at h; cases h
  | ok p1 =>
  rw [h1, except_bind_ok] at h
  cases hcn : cnotLoop p1 ((qubits.zip qubits.tail).enum) with
  | error e => rw [hcn, except_bind_error] at h; cases h
  | ok cnots =>
  rw [hcn, except_bind_ok] at h
  cases h2 : getIdx params 2 with
  | error e => rw [h2, except_bind_error] at h; cases h
  | ok p2 =>
  rw [h2, except_bind_ok] at h
  cases h3 : getIdx params 3 with
  | error e => rw [h3, except_bind_error] at h; cases h
  | ok p3 =>
  rw [h3, except_bind_ok] at h
  cases h4 : getIdx params 4 with
  | error e => rw [h4, except_bind_error] at h; cases h
  | ok p4 =>
  rw [h4, except_bind_ok] at h
  cases h5 : getIdx params 5 with
  | error e => rw [h5, except_bind_error] at h; cases h
  | ok p5 =>
  rw [h5, except_bind_ok] at h
  injection h with h
  exact ⟨p0, p1, p2, p3, p4, p5, cnots,
    (getIdx_ok_iff _ _ _).mp h0, (getIdx_ok_iff _ _ _).mp h1,
    (getIdx_ok_iff _ _ _).mp h2, (getIdx_ok_iff _ _ _).mp h3,
    (getIdx_ok_iff _ _ _).mp h4, (getIdx_ok_iff _ _ _).mp h5,
    hcn, h.symm⟩

lemma mem_phaseOps {f : ℕ → Operation} {qubits : List ℕ} {ps : List ℚ}
    {x : Operation} :
    x ∈ phaseOps f qubits ps ↔
      ∃ qp, qp ∈ qubits.zip ps ∧ qp.2 ≥ half ∧ x = f qp.1 := by
  simp only [phaseOps, List.mem_map, List.mem_filter, decide_eq_true_eq]
  constructor
  · rintro ⟨qp, ⟨hm, hge⟩, rfl⟩
    exact ⟨qp, hm, hge, rfl⟩
  · rintro ⟨qp, hm, hge, rfl⟩
    exact ⟨qp, ⟨hm, hge⟩, rfl⟩

lemma phaseOps_phase (f : ℕ → Operation) (v : ℕ)
    (hf : ∀ q, opPhase (f q) = v) (qubits : List ℕ) (ps : List ℚ) :
    ∀ x ∈ phaseOps f qubits ps, opPhase x = v := by
  intro x hx
  obtain ⟨qp, _, _, rfl⟩ := mem_phaseOps.mp hx
  exact hf qp.1

lemma cnots_phase (ps : List ℚ) (l : List (ℕ × ℕ × ℕ))
    (ops : List Operation) (h : cnotLoop ps l = Except.ok ops) :
    ∀ x ∈ ops, opPhase x = 1 := by
  intro x hx
  obtain ⟨t, _, rfl⟩ := cnotLoop_ok_mem ps l ops h x hx
  rfl

/-- Assembling the six phase blocks: any relation implied by a strict increase
of the phase number is pairwise on the concatenation, provided it is pairwise
on each block and the blocks carry the phase numbers 0 to 5. -/
lemma blocks_pairwise {R : Operation → Operation → Prop}
    (hR : ∀ a b, opPhase a < opPhase b → R a b)
    (b0 b1 b2 b3 b4 b5 : List Operation)
    (H0 : ∀ x ∈ b0, opPhase x = 0) (H1 : ∀ x ∈ b1, opPhase x = 1)
    (H2 : ∀ x ∈ b2, opPhase x = 2) (H3 : ∀ x ∈ b3, opPhase x = 3)
    (H4 : ∀ x ∈ b4, opPhase x = 4) (H5 : ∀ x ∈ b5, opPhase x = 5)
    (S0 : b0.Pairwise R) (S1 : b1.Pairwise R) (S2 : b2.Pairwise R)
    (S3 : b3.Pairwise R) (S4 : b4.Pairwise R) (S5 : b5.Pairwise R) :
    (b0 ++ b1 ++ b2 ++ b3 ++ b4 ++ b5).Pairwise R := by
  have app : ∀ (l1 l2 : List Operation) (v1 v2 : ℕ),
      l1.Pairwise R → l2.Pairwise R → (∀ x ∈ l1, opPhase x ≤ v1) →
      (∀ x ∈ l2, opPhase x = v2) → v1 < v2 →
      (l1 ++ l2).Pairwise R ∧ ∀ x ∈ l1 ++ l2, opPhase x ≤ v2 := by
    intro l1 l2 v1 v2 s1 s2 hb1 hb2 hv
    refine ⟨List.pairwise_append.mpr ⟨s1, s2, fun a ha b hb => hR a b ?_⟩, ?_⟩
    · have := hb1 a ha
      have := hb2 b hb
      omega
    · intro x hx
      rcases List.mem_append.mp hx with hm | hm
      · exact le_trans (hb1 x hm) (le_of_lt hv)
      · exact le_of_eq (hb2 x hm)
  have B0 : ∀ x ∈ b0, opPhase x ≤ 0 := fun x hx => le_of_eq (H0 x hx)
  obtain ⟨P1, B1⟩ := app b0 b1 0 1 S0 S1 B0 H1 (by omega)
  obtain ⟨P2, B2⟩ := app (b0 ++ b1) b2 1 2 P1 S2 B1 H2 (by omega)
  obtain ⟨P3, B3⟩ := app (b0 ++ b1 ++ b2) b3 2 3 P2 S3 B2 H3 (by omega)
  obtain ⟨P4, B4⟩ := app (b0 ++ b1 ++ b2 ++ b3) b4 3 4 P3 S4 B3 H4 (by omega)
  obtain ⟨P5, _⟩ := app (b0 ++ b1 ++ b2 ++ b3 ++ b4) b5 4 5 P4 S5 B4 H5 (by omega)
  exact P5

lemma pairwise_const_phase {l : List Operation} (v : ℕ)
    (h : ∀ x ∈ l, opPhase x = v) :
    l.Pairwise fun a b => opPhase a ≤ opPhase b :=
  List.pairwise_of_forall_mem_list fun a ha b hb => by
    rw [h a ha, h b hb]

lemma pairwise_lex_of_keys {l : List Operation} (v : ℕ)
    (hv : ∀ x ∈ l, opPhase x = v)
    (hk : l.Pairwise fun a b => opKey a < opKey b) :
    l.Pairwise fun a b =>
      opPhase a < opPhase b ∨ (opPhase a = opPhase b ∧ opKey a < opKey b) :=
  hk.imp_of_mem fun ha hb hab =>
    Or.inr ⟨by rw [hv _ ha, hv _ hb], hab⟩

lemma phaseOps_key_pairwise (f : ℕ → Operation) (hk : ∀ q, opKey (f q) = q)
    (N : ℕ) (ps : List ℚ) :
    (phaseOps f (List.range N) ps).Pairwise fun a b => opKey a < opKey b := by
  rw [phaseOps_range]
  refine List.Pairwise.map f (fun a b hab => ?_)
    ((List.pairwise_lt_range _).filter _)
  rw [hk a, hk b]
  exact hab

lemma cnots_key_pairwise (N : ℕ) (p1 : List ℚ) (cnots : List Operation)
    (h : cnotLoop p1 (((List.range N).zip (List.range N).tail).enum) =
      Except.ok cnots) :
    cnots.Pairwise fun a b => opKey a < opKey b := by
  have hb := cnotLoop_ok_bound _ _ _ h
  rw [cnotLoop_eq_ok _ _ hb, cnot_pairs_range, List.filter_map,
    List.map_map] at h
  injection h with h
  subst h
  refine List.Pairwise.map _ (fun a b hab => ?_)
    ((List.pairwise_lt_range _).filter _)
  exact hab

/-- Claim C1: for every qubit sequence and parameter matrix accepted by the
Builder, the built circuit lists its operations grouped in the fixed phase
order Reset, CNOT, H, S, T, Measure (no operation of a later phase precedes
one of an earlier phase), and when the qubit sequence is the topology's chain
`0..N-1` the operations within each phase moreover come in strictly ascending
qubit index (control index for CNOT). -/
theorem build_circuit_phases_in_order (qubits : List ℕ)
    (params : List (List ℚ)) (c : Circuit)
    (h : build_circuit qubits params = Except.ok c) :
    (c.Pairwise fun a b => opPhase a ≤ opPhase b) ∧
    (qubits = List.range qubits.length →
      c.Pairwise fun a b =>
        opPhase a < opPhase b ∨ (opPhase a = opPhase b ∧ opKey a < opKey b)) := by
  obtain ⟨p0, p1, p2, p3, p4, p5, cnots, e0, e1, e2, e3, e4, e5, hcn, rfl⟩ :=
    build_circuit_ok_decomp qubits params c h
  have H0 := phaseOps_phase Operation.Reset 0 (fun q => rfl) qubits p0
  have Hc := cnots_phase p1 _ cnots hcn
  have H2 := phaseOps_phase Operation.H 2 (fun q => rfl) qubits p2
  have H3 := phaseOps_phase Operation.S 3 (fun q => rfl) qubits p3
  have H4 := phaseOps_phase Operation.T 4 (fun q => rfl) qubits p4
  have H5 := phaseOps_phase Operation.Measure 5 (fun q => rfl) qubits p5
  constructor
  · exact blocks_pairwise (fun a b hab => le_of_lt hab) _ _ _ _ _ _
      H0 Hc H2 H3 H4 H5
      (pairwise_const_phase 0 H0) (pairwise_const_phase 1 Hc)
      (pairwise_const_phase 2 H2) (pairwise_const_phase 3 H3)
      (pairwise_const_phase 4 H4) (pairwise_const_phase 5 H5)
  · intro hq
    obtain ⟨N, rfl⟩ : ∃ N, qubits = List.range N := ⟨qubits.length, hq⟩
    exact blocks_pairwise (fun a b hab => Or.inl hab) _ _ _ _ _ _
      H0 Hc H2 H3 H4 H5
      (pairwise_lex_of_keys 0 H0
        (phaseOps_key_pairwise Operation.Reset (fun q => rfl) N p0))
      (pairwise_lex_of_keys 1 Hc (cnots_key_pairwise N p1 cnots hcn))
      (pairwise_lex_of_keys 2 H2
        (phaseOps_key_pairwise Operation.H (fun q => rfl) N p2))
      (pairwise_lex_of_keys 3 H3
        (phaseOps_key_pairwise Operation.S (fun q => rfl) N p3))
      (pairwise_lex_of_keys 4 H4
        (phaseOps_key_pairwise Operation.T (fun q => rfl) N p4))
      (pairwise_lex_of_keys 5 H5
        (phaseOps_key_pairwise Operation.Measure (fun q => rfl) N p5))

lemma enum_fst_lt {α : Type} (l : List α) (t : ℕ × α) (ht : t ∈ l.enum) :
    t.1 < l.length := by
  obtain ⟨i, hi, heq⟩ := List.mem_iff_getElem.mp ht
  rw [List.getElem_enum] at heq
  have hlen : i < l.length := by simpa using hi
  rw [← heq]
  exact hlen

/-- Claim C1 witness. -/
theorem build_circuit_phases_in_order_witness :
    (([Operation.Reset 0, Operation.CNOT 0 1, Operation.Measure 0,
        Operation.Measure 1] : Circuit).Pairwise
      fun a b => opPhase a ≤ opPhase b) ∧
    (List.range 2 = List.range (List.range 2).length →
      ([Operation.Reset 0, Operation.CNOT 0 1, Operation.Measure 0,
          Operation.Measure 1] : Circuit).Pairwise
        fun a b =>
          opPhase a < opPhase b ∨ (opPhase a = opPhase b ∧ opKey a < opKey b)) :=
  build_circuit_phases_in_order (List.range 2)
    [[1, 0], [1, 0], [0, 0], [0, 0], [0, 0], [1, 1]]
    [Operation.Reset 0, Operation.CNOT 0 1, Operation.Measure 0,
      Operation.Measure 1] (by decide)

/-- Claim C9: for N = 2 and the matrix [[1,0],[1,x],[0,0],[0,0],[0,0],[1,1]],
with the second CNOT entry x arbitrary (it is never consulted, as only one
adjacent pair exists), the Builder produces exactly
[Reset(0), CNOT(0,1), Measure(0), Measure(1)]. -/
theorem build_circuit_example_two_qubits (x : ℚ) :
    build_circuit (List.range 2)
        [[1, 0], [1, x], [0, 0], [0, 0], [0, 0], [1, 1]] =
      Except.ok [Operation.Reset 0, Operation.CNOT 0 1, Operation.Measure 0,
        Operation.Measure 1] := by
  rfl

/-- Claim C8: the Builder is deterministic — two invocations on the same
qubit sequence and the same parameter matrix return identical circuits; its
embedding is a pure function of the two arguments, taking no random stream. -/
theorem build_circuit_deterministic (q1 q2 : List ℕ)
    (ps1 ps2 : List (List ℚ)) (hq : q1 = q2) (hp : ps1 = ps2) :
    build_circuit q1 ps1 = build_circuit q2 ps2 := by
  rw [hq, hp]

/-- Claim C8 witness. -/
theorem build_circuit_deterministic_witness :
    build_circuit (List.range 2) [[1], [1], [0], [0], [0], [0]] =
      build_circuit (List.range 2) [[1], [1], [0], [0], [0], [0]] :=
  build_circuit_deterministic (List.range 2) (List.range 2)
    [[1], [1], [0], [0], [0], [0]] [[1], [1], [0], [0], [0], [0]] rfl rfl

/-- Claim C2 counterexample: with N = 2 and all six parameter lists of length
1 (a shape mismatch), the Builder signals no InvalidInput condition; it
silently truncates via zip and returns a circuit. -/
theorem build_circuit_shape_mismatch_no_error :
    (∀ l ∈ ([[(1 : ℚ)], [1], [0], [0], [0], [0]] : List (List ℚ)),
      l.length ≠ 2) ∧
    build_circuit (List.range 2) [[1], [1], [0], [0], [0], [0]] =
      Except.ok [Operation.Reset 0, Operation.CNOT 0 1] := by
  exact ⟨by decide, by decide⟩

/-- Claim C2 amended: the Builder performs no shape validation at all.  Given
any six parameter lists, it returns a circuit exactly when the CNOT list
covers the control indices 0..N-2 (silently truncating every other mismatch
via zip); when the CNOT list is shorter it fails with a Python IndexError,
not an InvalidInput condition. -/
theorem build_circuit_ok_iff_cnot_covered (qubits : List ℕ)
    (p0 p1 p2 p3 p4 p5 : List ℚ) :
    (∃ c, build_circuit qubits [p0, p1, p2, p3, p4, p5] = Except.ok c) ↔
      qubits.length - 1 ≤ p1.length := by
  constructor
  · rintro ⟨c, h⟩
    obtain ⟨q0, q1, q2, q3, q4, q5, cnots, e0, e1, _, _, _, _, hcn, _⟩ :=
      build_circuit_ok_decomp qubits [p0, p1, p2, p3, p4, p5] c h
    have hq1 : q1 = p1 := by
      simp only [List.getElem?_cons_succ, List.getElem?_cons_zero] at e1
      exact (Option.some.inj e1).symm
    rw [hq1] at hcn
    have hb := cnotLoop_ok_bound _ _ _ hcn
    by_contra hlt
    push_neg at hlt
    have hidx : p1.length < ((qubits.zip qubits.tail).enum).length := by
      simp only [List.enum_length, List.length_zip, List.length_tail]
      omega
    have hmem : ((qubits.zip qubits.tail).enum)[p1.length] ∈
        (qubits.zip qubits.tail).enum := List.getElem_mem hidx
    have hcontra := hb _ hmem
    rw [List.getElem_enum] at hcontra
    simp at hcontra
  · intro h
    have hb : ∀ t ∈ (qubits.zip qubits.tail).enum, t.1 < p1.length := by
      intro t ht
      have h1 := enum_fst_lt _ t ht
      simp only [List.length_zip, List.length_tail] at h1
      omega
    have hcn := cnotLoop_eq_ok p1 _ hb
    have step : build_circuit qubits [p0, p1, p2, p3, p4, p5] =
        Except.bind (cnotLoop p1 ((qubits.zip qubits.tail).enum))
          (fun cnots => Except.ok
            (phaseOps Operation.Reset qubits p0 ++ cnots ++
             phaseOps Operation.H qubits p2 ++
             phaseOps Operation.S qubits p3 ++
             phaseOps Operation.T qubits p4 ++
             phaseOps Operation.Measure qubits p5)) := rfl
    refine ⟨phaseOps Operation.Reset qubits p0 ++
      ((((qubits.zip qubits.tail).enum).filter
        fun t => decide (p1.getD t.1 0 ≥ half)).map
          fun t => Operation.CNOT t.2.1 t.2.2) ++
      phaseOps Operation.H qubits p2 ++ phaseOps Operation.S qubits p3 ++
      phaseOps Operation.T qubits p4 ++
      phaseOps Operation.Measure qubits p5, ?_⟩
    rw [step, hcn]
    rfl

/-- Claim C2 amended witness. -/
theorem build_circuit_ok_iff_cnot_covered_witness :
    (∃ c, build_circuit (List.range 2) [[1], [1], [0], [0], [0], [0]] =
      Except.ok c) ↔ (List.range 2).length - 1 ≤ [(1 : ℚ)].length :=
  build_circuit_ok_iff_cnot_covered (List.range 2) [1] [1] [0] [0] [0] [0]

/-- Claim C3 (the code ignores its timestep argument): called with
nsteps = 3 on one qubit, the Driver still performs exactly NSTEPS = 1
iterations, handing a single circuit to the simulator, because the loop at
line 86 is `for timestep in range(NSTEPS)` over the module constant. -/
theorem main_ignores_nsteps :
    (main_sim_calls 3 1 fun _ => 0).length = 1 ∧ NSTEPS = 1 := by
  exact ⟨rfl, rfl⟩

/-- Claim C4: on the chain `0..N-1` with `N ≥ 1`, every CNOT operation the
Builder emits has a control `a` with `a + 1 < N` (so the control lies in
`0..N-2` and is never qubit `N-1`) and target exactly `a + 1`. -/
theorem build_circuit_cnot_controls (N : ℕ) (params : List (List ℚ))
    (c : Circuit) (hN : 1 ≤ N)
    (h : build_circuit (List.range N) params = Except.ok c) :
    ∀ a b, Operation.CNOT a b ∈ c → b = a + 1 ∧ a + 1 < N := by
  obtain ⟨p0, p1, p2, p3, p4, p5, cnots, _, _, _, _, _, _, hcn, rfl⟩ :=
    build_circuit_ok_decomp _ params c h
  rw [cnot_pairs_range] at hcn
  intro a b hab
  simp only [List.mem_append] at hab
  rcases hab with ((((hab | hab) | hab) | hab) | hab) | hab
  · obtain ⟨qp, _, _, hx⟩ := mem_phaseOps.mp hab
    simp at hx
  · obtain ⟨t, ht, hx⟩ := cnotLoop_ok_mem _ _ _ hcn _ hab
    simp only [List.mem_map, List.mem_range] at ht
    obtain ⟨i, hi, rfl⟩ := ht
    have h1 : a = i ∧ b = i + 1 := by
      injection hx with ha hb2
      exact ⟨ha, hb2⟩
    obtain ⟨rfl, rfl⟩ := h1
    omega
  · obtain ⟨qp, _, _, hx⟩ := mem_phaseOps.mp hab
    simp at hx
  · obtain ⟨qp, _, _, hx⟩ := mem_phaseOps.mp hab
    simp at hx
  · obtain ⟨qp, _, _, hx⟩ := mem_phaseOps.mp hab
    simp at hx
  · obtain ⟨qp, _, _, hx⟩ := mem_phaseOps.mp hab
    simp at hx

/-- Claim C4 witness. -/
theorem build_circuit_cnot_controls_witness :
    1 ≤ 2 ∧ ∀ a b,
      Operation.CNOT a b ∈ ([Operation.Reset 0, Operation.CNOT 0 1,
        Operation.Measure 0, Operation.Measure 1] : Circuit) →
      b = a + 1 ∧ a + 1 < 2 :=
  ⟨by decide,
    build_circuit_cnot_controls 2 [[1, 0], [1, 0], [0, 0], [0, 0], [0, 0], [1, 1]]
      [Operation.Reset 0, Operation.CNOT 0 1, Operation.Measure 0,
        Operation.Measure 1] (by decide) (by decide)⟩

/-- Claim C7: for every qubit count N the Sampler returns exactly six
sequences, each of length exactly N (six empty sequences for N = 0), in the
fixed order Reset, ApplyCNOT, ApplyH, ApplyS, ApplyT, Measure — phase p's
list holds the consecutive draws `p*N .. p*N + (N-1)` of the random stream —
and when the random source yields values in [0, 1), so does every entry. -/
theorem random_params_shape (N : ℕ) (rand : ℕ → ℚ)
    (hr : ∀ k, 0 ≤ rand k ∧ rand k < 1) :
    (random_params N rand).length = 6 ∧
    (∀ l ∈ random_params N rand, l.length = N ∧
      ∀ x ∈ l, 0 ≤ x ∧ x < 1) ∧
    (∀ p i, p < 6 → i < N →
      ((random_params N rand).getD p []).getD i 0 = rand (p * N + i)) := by
  refine ⟨rfl, ?_, ?_⟩
  · intro l hl
    simp only [random_params, List.mem_cons, List.not_mem_nil, or_false] at hl
    rcases hl with rfl | rfl | rfl | rfl | rfl | rfl <;>
      refine ⟨by simp, ?_⟩ <;>
      · intro x hx
        simp only [List.mem_map, List.mem_range] at hx
        obtain ⟨k, _, rfl⟩ := hx
        exact hr _
  · intro p i hp hi
    have hgd : ∀ (g : ℕ → ℚ), (((List.range N).map g).getD i 0) = g i := by
      intro g
      rw [List.getD_eq_getElem _ 0 (by simpa using hi)]
      simp
    interval_cases p <;>
      simp only [random_params, List.getD_cons_zero, List.getD_cons_succ] <;>
      rw [hgd] <;> ring_nf

/-- Claim C7 witness. -/
theorem random_params_shape_witness :
    (random_params 2 fun _ => 0).length = 6 ∧
    (∀ l ∈ random_params 2 fun _ => 0, l.length = 2 ∧
      ∀ x ∈ l, 0 ≤ x ∧ x < 1) ∧
    (∀ p i, p < 6 → i < 2 →
      ((random_params 2 fun _ => (0 : ℚ)).getD p []).getD i 0 = 0) :=
  random_params_shape 2 (fun _ => 0)
    (fun k => ⟨le_refl 0, by norm_num⟩)

/-- Claim C5: on the chain `0..N-1` with a shape-N matrix, the built circuit
contains phase p's operation for qubit i exactly when `matrix[p][i] >= 0.5`
(for the CNOT phase, for the eligible controls `i` with `i + 1 < N`).  In
particular an entry exactly equal to 0.5 is included and any entry strictly
below 0.5 is excluded. -/
theorem build_circuit_threshold (N : ℕ) (p0 p1 p2 p3 p4 p5 : List ℚ)
    (c : Circuit)
    (h0 : p0.length = N) (h1 : p1.length = N) (h2 : p2.length = N)
    (h3 : p3.length = N) (h4 : p4.length = N) (h5 : p5.length = N)
    (h : build_circuit (List.range N) [p0, p1, p2, p3, p4, p5] =
      Except.ok c) :
    (∀ i, i < N → (Operation.Reset i ∈ c ↔ p0.getD i 0 ≥ half)) ∧
    (∀ i, i + 1 < N → (Operation.CNOT i (i + 1) ∈ c ↔ p1.getD i 0 ≥ half)) ∧
    (∀ i, i < N → (Operation.H i ∈ c ↔ p2.getD i 0 ≥ half)) ∧
    (∀ i, i < N → (Operation.S i ∈ c ↔ p3.getD i 0 ≥ half)) ∧
    (∀ i, i < N → (Operation.T i ∈ c ↔ p4.getD i 0 ≥ half)) ∧
    (∀ i, i < N → (Operation.Measure i ∈ c ↔ p5.getD i 0 ≥ half)) := by
  rw [build_circuit_range_eq N p0 p1 p2 p3 p4 p5 (by omega)] at h
  injection h with h
  subst h
  refine ⟨fun i hi => ?_, fun i hi => ?_, fun i hi => ?_, fun i hi => ?_,
    fun i hi => ?_, fun i hi => ?_⟩
  · simp [h0, h1, h2, h3, h4, h5, hi]
  · have hi2 : i < N - 1 := by omega
    simp [h0, h1, h2, h3, h4, h5, hi2]
  · simp [h0, h1, h2, h3, h4, h5, hi]
  · simp [h0, h1, h2, h3, h4, h5, hi]
  · simp [h0, h1, h2, h3, h4, h5, hi]
  · simp [h0, h1, h2, h3, h4, h5, hi]

/-- Claim C5 witness. -/
theorem build_circuit_threshold_witness :
    (∀ i, i < 2 → (Operation.Reset i ∈
        ([Operation.Reset 0, Operation.CNOT 0 1, Operation.Measure 0,
          Operation.Measure 1] : Circuit) ↔
      ([(1 : ℚ), 0].getD i 0 ≥ half))) ∧
    (∀ i, i + 1 < 2 → (Operation.CNOT i (i + 1) ∈
        ([Operation.Reset 0, Operation.CNOT 0 1, Operation.Measure 0,
          Operation.Measure 1] : Circuit) ↔
      ([(1 : ℚ), 0].getD i 0 ≥ half))) ∧
    (∀ i, i < 2 → (Operation.H i ∈
        ([Operation.Reset 0, Operation.CNOT 0 1, Operation.Measure 0,
          Operation.Measure 1] : Circuit) ↔
      ([(0 : ℚ), 0].getD i 0 ≥ half))) ∧
    (∀ i, i < 2 → (Operation.S i ∈
        ([Operation.Reset 0, Operation.CNOT 0 1, Operation.Measure 0,
          Operation.Measure 1] : Circuit) ↔
      ([(0 : ℚ), 0].getD i 0 ≥ half))) ∧
    (∀ i, i < 2 → (Operation.T i ∈
        ([Operation.Reset 0, Operation.CNOT 0 1, Operation.Measure 0,
          Operation.Measure 1] : Circuit) ↔
      ([(0 : ℚ), 0].getD i 0 ≥ half))) ∧
    (∀ i, i < 2 → (Operation.Measure i ∈
        ([Operation.Reset 0, Operation.CNOT 0 1, Operation.Measure 0,
          Operation.Measure 1] : Circuit) ↔
      ([(1 : ℚ), 1].getD i 0 ≥ half))) :=
  build_circuit_threshold 2 [1, 0] [1, 0] [0, 0] [0, 0] [0, 0] [1, 1]
    [Operation.Reset 0, Operation.CNOT 0 1, Operation.Measure 0,
      Operation.Measure 1]
    rfl rfl rfl rfl rfl rfl (by decide)

/-- Claim C6: for `N ≥ 1`, the all-ones matrix makes the Builder emit every
eligible operation of every phase — N each for Reset, H, S, T, Measure and
N-1 CNOTs, phases in the fixed order and ascending index within each phase,
6N-1 operations in total — while the all-zeros matrix yields the empty
circuit. -/
theorem build_circuit_extremes (N : ℕ) (hN : 1 ≤ N) :
    build_circuit (List.range N)
        (List.replicate 6 (List.replicate N 1)) =
      Except.ok ((List.range N).map Operation.Reset ++
        ((List.range (N - 1)).map fun i => Operation.CNOT i (i + 1)) ++
        (List.range N).map Operation.H ++ (List.range N).map Operation.S ++
        (List.range N).map Operation.T ++
        (List.range N).map Operation.Measure) ∧
    ((List.range N).map Operation.Reset ++
        ((List.range (N - 1)).map fun i => Operation.CNOT i (i + 1)) ++
        (List.range N).map Operation.H ++ (List.range N).map Operation.S ++
        (List.range N).map Operation.T ++
        (List.range N).map Operation.Measure).length = 6 * N - 1 ∧
    build_circuit (List.range N)
        (List.replicate 6 (List.replicate N 0)) =
      Except.ok [] := by
  have hone : ∀ m : ℕ, m ≤ N →
      ((List.range m).filter
        fun i => decide ((List.replicate N (1 : ℚ)).getD i 0 ≥ half)) =
      List.range m := by
    intro m hm
    apply List.filter_eq_self.mpr
    intro i hi
    rw [List.mem_range] at hi
    rw [List.getD_eq_getElem _ 0 (by simp; omega), List.getElem_replicate]
    decide
  have hzero : ∀ m : ℕ,
      ((List.range m).filter
        fun i => decide ((List.replicate N (0 : ℚ)).getD i 0 ≥ half)) =
      [] := by
    intro m
    apply List.filter_eq_nil_iff.mpr
    intro i _
    have hg : (List.replicate N (0 : ℚ)).getD i 0 = 0 := by
      rcases Nat.lt_or_ge i N with hlt | hge
      · rw [List.getD_eq_getElem _ 0 (by simpa using hlt),
          List.getElem_replicate]
      · rw [List.getD_eq_default]
        simpa using hge
    rw [hg]
    decide
  have e1 : List.replicate 6 (List.replicate N (1 : ℚ)) =
      [List.replicate N 1, List.replicate N 1, List.replicate N 1,
       List.replicate N 1, List.replicate N 1, List.replicate N 1] := rfl
  have e0 : List.replicate 6 (List.replicate N (0 : ℚ)) =
      [List.replicate N 0, List.replicate N 0, List.replicate N 0,
       List.replicate N 0, List.replicate N 0, List.replicate N 0] := rfl
  refine ⟨?_, ?_, ?_⟩
  · rw [e1, build_circuit_range_eq N _ _ _ _ _ _ (by simp),
      List.length_replicate, Nat.min_self, hone N le_rfl,
      hone (N - 1) (by omega)]
  · simp only [List.length_append, List.length_map, List.length_range]
    omega
  · rw [e0, build_circuit_range_eq N _ _ _ _ _ _ (by simp),
      List.length_replicate, Nat.min_self, hzero N, hzero (N - 1)]
    simp

/-- Claim C6 witness. -/
theorem build_circuit_extremes_witness :
    (build_circuit (List.range 2)
        (List.replicate 6 (List.replicate 2 1)) =
      Except.ok ((List.range 2).map Operation.Reset ++
        ((List.range (2 - 1)).map fun i => Operation.CNOT i (i + 1)) ++
        (List.range 2).map Operation.H ++ (List.range 2).map Operation.S ++
        (List.range 2).map Operation.T ++
        (List.range 2).map Operation.Measure)) ∧
    ((List.range 2).map Operation.Reset ++
        ((List.range (2 - 1)).map fun i => Operation.CNOT i (i + 1)) ++
        (List.range 2).map Operation.H ++ (List.range 2).map Operation.S ++
        (List.range 2).map Operation.T ++
        (List.range 2).map Operation.Measure).length = 6 * 2 - 1 ∧
    build_circuit (List.range 2)
        (List.replicate 6 (List.replicate 2 0)) =
      Except.ok [] :=
  build_circuit_extremes 2 (by decide)

lemma appendOps_params (l : List Operation) (t : BuildState) :
    (appendOps l t).params = t.params := rfl

lemma appendOps_qubits (l : List Operation) (t : BuildState) :
    (appendOps l t).qubits = t.qubits := rfl

/-- Claim C10: the Builder does not mutate its arguments.  In the
state-passing embedding of its body, whenever the run finishes, the qubit
list and the parameter lists of the final state are exactly those of the
initial state (each statement of the body only ever updates the circuit
object under construction). -/
theorem build_circuit_frame (s s2 : BuildState)
    (h : build_circuit_state s = Except.ok s2) :
    s2.qubits = s.qubits ∧ s2.params = s.params := by
  unfold build_circuit_state at h
  simp only [appendOps_params, appendOps_qubits] at h
  cases h0 : getIdx s.params 0 with
  | error e => rw [h0, except_bind_error] at h; cases h
  | ok p0 =>
  rw [h0, except_bind_ok] at h
  cases h1 : getIdx s.params 1 with
  | error e => rw [h1, except_bind_error] at h; cases h
  | ok p1 =>
  rw [h1, except_bind_ok] at h
  cases hcn : cnotLoop p1 ((s.qubits.zip s.qubits.tail).enum) with
  | error e => rw [hcn, except_bind_error] at h; cases h
  | ok cnots =>
  rw [hcn, except_bind_ok] at h
  cases h2 : getIdx s.params 2 with
  | error e => rw [h2, except_bind_error] at h; cases h
  | ok p2 =>
  rw [h2, except_bind_ok] at h
  cases h3 : getIdx s.params 3 with
  | error e => rw [h3, except_bind_error] at h; cases h
  | ok p3 =>
  rw [h3, except_bind_ok] at h
  cases h4 : getIdx s.params 4 with
  | error e => rw [h4, except_bind_error] at h; cases h
  | ok p4 =>
  rw [h4, except_bind_ok] at h
  cases h5 : getIdx s.params 5 with
  | error e => rw [h5, except_bind_error] at h; cases h
  | ok p5 =>
  rw [h5, except_bind_ok] at h
  injection h with h
  rw [← h]
  exact ⟨by simp [appendOps_qubits], by simp [appendOps_params]⟩

/-- Claim C10 witness. -/
theorem build_circuit_frame_witness :
    (BuildState.mk [0] [[0], [0], [0], [0], [0], [0]] []).qubits =
      (BuildState.mk [0] [[0], [0], [0], [0], [0], [0]] []).qubits ∧
    (BuildState.mk [0] [[0], [0], [0], [0], [0], [0]] []).params =
      (BuildState.mk [0] [[0], [0], [0], [0], [0], [0]] []).params :=
  build_circuit_frame
    (BuildState.mk [0] [[0], [0], [0], [0], [0], [0]] [])
    (BuildState.mk [0] [[0], [0], [0], [0], [0], [0]] []) (by decide)

end QuantumStuff
